import Mathlib

/-!
Verification development for the JSON test-report visualizer backend
(`backend/main.py`).  Python strings are modelled as `List Char`; JSON
values as the inductive `JValue`; `json.loads` as the executable parser
`jparse` (restricted to integer numerals and the basic string escapes,
which covers every input the pipeline's behaviour is examined on);
fallible Python code returns `Option` / `Except`.
-/

/-- Python whitespace as stripped by `str.strip()` (ASCII fragment). -/
def pyWs (c : Char) : Bool :=
  c == ' ' || c == '\t' || c == '\n' || c == '\r' || c == '\x0b' || c == '\x0c'

/-- Drop chars satisfying `p` from the right end (Python `rstrip`). -/
def dropWhileRight (p : Char → Bool) (l : List Char) : List Char :=
  (l.reverse.dropWhile p).reverse

/-- Python `str.strip()` with no argument: trim whitespace on both ends. -/
def pyStrip (l : List Char) : List Char :=
  dropWhileRight pyWs (l.dropWhile pyWs)

/-- Python `sub in s` substring test: some tail of `s` starts with `sub`. -/
def hasSub (l sub : List Char) : Bool :=
  l.tails.any fun t => sub.isPrefixOf t

/-- Worker for `splitOnSub`: repeatedly take the leftmost non-overlapping
occurrence of the separator `p :: ps`.  `fuel` bounds the recursion; every
call from `splitOnSub` supplies more fuel than the input length, so the
fuel-exhausted branch is unreachable there. -/
def splitAux (p : Char) (ps : List Char) : Nat → List Char → List (List Char)
  | 0, l => [l]
  | _ + 1, [] => [[]]
  | f + 1, c :: t =>
    if (p :: ps).isPrefixOf (c :: t) then
      [] :: splitAux p ps f (t.drop ps.length)
    else
      match splitAux p ps f t with
      | [] => [[c]]
      | q :: qs => (c :: q) :: qs

/-- Python `s.split(sep)` for a non-empty separator (the empty-separator
case raises in Python and is never used by the program). -/
def splitOnSub (sep l : List Char) : List (List Char) :=
  match sep with
  | [] => [l]
  | p :: ps => splitAux p ps (l.length + 1) l

/-- Python `sep.join(parts)`. -/
def pyJoin (sep : List Char) : List (List Char) → List Char
  | [] => []
  | [l] => l
  | l :: t => l ++ sep ++ pyJoin sep t

example : pyStrip "  ab c\n".toList = "ab c".toList := by decide
example : splitOnSub ",".toList "a,b,,c".toList =
    ["a".toList, "b".toList, [], "c".toList] := by decide
example : splitOnSub "aa".toList "aaa".toList = [[], "a".toList] := by decide
example : hasSub "abcd".toList "bc".toList = true := by decide
example : hasSub "abcd".toList "bd".toList = false := by decide
example : pyJoin ",".toList ["a".toList, [], "c".toList] = "a,,c".toList := by decide

/-- JSON values as produced by Python `json.loads`: `obj` keeps the dict's
insertion order, `num` is restricted to integers (no float in any input the
pipeline's behaviour is examined on). -/
inductive JValue where
  | null
  | bool (b : Bool)
  | num (n : Int)
  | str (s : List Char)
  | arr (elems : List JValue)
  | obj (members : List (List Char × JValue))

/-- JSON inter-token whitespace accepted by `json.loads`. -/
def jWs (c : Char) : Bool := c == ' ' || c == '\t' || c == '\n' || c == '\r'

def skipWs (l : List Char) : List Char := l.dropWhile jWs

/-- Single-character escapes accepted inside JSON strings
(`\uXXXX` is not modelled; no examined input uses it). -/
def jEsc (c : Char) : Option Char :=
  if c == '\"' then some '\"'
  else if c == '\\' then some '\\'
  else if c == '/' then some '/'
  else if c == 'n' then some '\n'
  else if c == 't' then some '\t'
  else if c == 'r' then some '\r'
  else if c == 'b' then some '\x08'
  else if c == 'f' then some '\x0c'
  else none

/-- Parse the body of a JSON string after the opening quote; returns the
decoded chars and the remaining input after the closing quote. -/
def parseJString : List Char → Option (List Char × List Char)
  | [] => none
  | '\"' :: rest => some ([], rest)
  | '\\' :: e :: rest =>
    match jEsc e with
    | none => none
    | some c =>
      match parseJString rest with
      | none => none
      | some (s, r) => some (c :: s, r)
  | ['\\'] => none
  | c :: rest =>
    if c.toNat < 32 then none
    else
      match parseJString rest with
      | none => none
      | some (s, r) => some (c :: s, r)

def natOfDigits (ds : List Char) : Nat :=
  ds.foldl (fun a c => a * 10 + (c.toNat - 48)) 0

/-- Parse a JSON integer numeral (floats and exponents rejected: modelling
restriction, see `JValue.num`). -/
def parseNum (l : List Char) : Option (Int × List Char) :=
  let stripped := match l with
    | '-' :: t => (true, t)
    | _ => (false, l)
  let spanned := stripped.2.span Char.isDigit
  if spanned.1 = [] then none
  else if spanned.1.length > 1 && spanned.1.headD '0' == '0' then none
  else
    match spanned.2 with
    | '.' :: _ => none
    | 'e' :: _ => none
    | 'E' :: _ => none
    | _ =>
      some (if stripped.1 then -(natOfDigits spanned.1 : Int) else (natOfDigits spanned.1 : Int),
            spanned.2)

/-- Python-dict insertion: replacing an existing key keeps its position. -/
def dictInsert (ms : List (List Char × JValue)) (k : List Char) (v : JValue) :
    List (List Char × JValue) :=
  match ms with
  | [] => [(k, v)]
  | (k₀, v₀) :: t => if k₀ = k then (k₀, v) :: t else (k₀, v₀) :: dictInsert t k v

def dictify (ps : List (List Char × JValue)) : List (List Char × JValue) :=
  ps.foldl (fun acc kv => dictInsert acc kv.1 kv.2) []

/-- Parser modes: a value, array elements (first / subsequent), object
members (first / subsequent). -/
inductive PMode where
  | pv | parrF | parrN | pobjF | pobjN

/-- Parser intermediate results for the three modes. -/
inductive PRes where
  | rv (v : JValue)
  | rl (vs : List JValue)
  | rm (ms : List (List Char × JValue))

/-- Recursive-descent JSON parser; structural recursion on `fuel` so that
concrete runs reduce inside the kernel.  `jparse` supplies ample fuel. -/
def parseF : Nat → PMode → List Char → Option (PRes × List Char)
  | 0, _, _ => none
  | f + 1, .pv, s =>
    match skipWs s with
    | [] => none
    | 'n' :: 'u' :: 'l' :: 'l' :: r => some (.rv .null, r)
    | 't' :: 'r' :: 'u' :: 'e' :: r => some (.rv (.bool true), r)
    | 'f' :: 'a' :: 'l' :: 's' :: 'e' :: r => some (.rv (.bool false), r)
    | '\"' :: r =>
      (match parseJString r with
       | some (sb, r₁) => some (.rv (.str sb), r₁)
       | none => none)
    | '[' :: r =>
      (match parseF f .parrF r with
       | some (.rl vs, r₁) => some (.rv (.arr vs), r₁)
       | _ => none)
    | '\x7b' :: r =>
      (match parseF f .pobjF r with
       | some (.rm ms, r₁) => some (.rv (.obj (dictify ms)), r₁)
       | _ => none)
    | c :: r =>
      (match parseNum (c :: r) with
       | some (n, r₁) => some (.rv (.num n), r₁)
       | none => none)
  | f + 1, .parrF, s =>
    match skipWs s with
    | ']' :: r => some (.rl [], r)
    | _ =>
      match parseF f .pv s with
      | some (.rv v, r₁) =>
        (match parseF f .parrN r₁ with
         | some (.rl vs, r₂) => some (.rl (v :: vs), r₂)
         | _ => none)
      | _ => none
  | f + 1, .parrN, s =>
    match skipWs s with
    | ']' :: r => some (.rl [], r)
    | ',' :: r =>
      (match parseF f .pv r with
       | some (.rv v, r₁) =>
         match parseF f .parrN r₁ with
         | some (.rl vs, r₂) => some (.rl (v :: vs), r₂)
         | _ => none
       | _ => none)
    | _ => none
  | f + 1, .pobjF, s =>
    match skipWs s with
    | '\x7d' :: r => some (.rm [], r)
    | '\"' :: r =>
      (match parseJString r with
       | some (k, r₁) =>
         match skipWs r₁ with
         | ':' :: r₂ =>
           (match parseF f .pv r₂ with
            | some (.rv v, r₃) =>
              match parseF f .pobjN r₃ with
              | some (.rm ms, r₄) => some (.rm ((k, v) :: ms), r₄)
              | _ => none
            | _ => none)
         | _ => none
       | none => none)
    | _ => none
  | f + 1, .pobjN, s =>
    match skipWs s with
    | '\x7d' :: r => some (.rm [], r)
    | ',' :: r =>
      (match skipWs r with
       | '\"' :: r₀ =>
         match parseJString r₀ with
         | some (k, r₁) =>
           (match skipWs r₁ with
            | ':' :: r₂ =>
              match parseF f .pv r₂ with
              | some (.rv v, r₃) =>
                (match parseF f .pobjN r₃ with
                 | some (.rm ms, r₄) => some (.rm ((k, v) :: ms), r₄)
                 | _ => none)
              | _ => none
            | _ => none)
         | none => none
       | _ => none)
    | _ => none

/-- `json.loads`: parse one value and require only whitespace after it. -/
def jparse (l : List Char) : Option JValue :=
  match parseF (2 * l.length + 2) .pv l with
  | some (.rv v, rest) => if skipWs rest = [] then some v else none
  | _ => none

example : jparse "\x7b\"a\": 1\x7d".toList =
    some (.obj [("a".toList, .num 1)]) := rfl
example : jparse " [1, -2, \"x\", true, null] ".toList =
    some (.arr [.num 1, .num (-2), .str "x".toList, .bool true, .null]) := rfl
example : jparse "[\x7b\"a\": 1\x7d\n\x7b\"b\": 2\x7d]".toList = none := rfl
example : jparse "\x7b\"a\": \x7b\"b\": []\x7d\x7d".toList =
    some (.obj [("a".toList, .obj [("b".toList, .arr [])])]) := rfl
example : jparse "[1, 2,]".toList = none := rfl

/-- Python `objects[-1] = f(objects[-1])` (no-op on the empty list, which
cannot occur: `splitOnSub` always returns at least one piece). -/
def modifyLastElem (f : List Char → List Char) (ls : List (List Char)) :
    List (List Char) :=
  (ls.reverse.modifyHead f).reverse

/-- `load_json_file_local` (backend/main.py:52-79).  Reads the file text;
if the stripped text starts with `\x7b` and ends with `\x7d` it applies the
"concatenated objects" repair: strip trailing commas, split on the literal
`\x7d,\n\x7b`, append `\x7d` to pieces not ending in one, strip leading
braces from the first piece and trailing braces from the last, join with
`\x7d,\x7b` and wrap in `[\x7b` ... `\x7d]`; otherwise parse as plain JSON.
Any parse failure is caught and yields `none`. -/
def load_json_file_local (content : List Char) : Option JValue :=
  let s := pyStrip content
  if "\x7b".toList.isPrefixOf s && "\x7d".toList.isSuffixOf s then
    let pieces := splitOnSub "\x7d,\n\x7b".toList (dropWhileRight (· == ',') s)
    let objects := pieces.map fun ob =>
      if "\x7d".toList.isSuffixOf ob then ob else ob ++ "\x7d".toList
    let objects := objects.modifyHead fun o => o.dropWhile (· == '\x7b')
    let objects := modifyLastElem (fun o => dropWhileRight (· == '\x7d') o) objects
    jparse ("[\x7b".toList ++ pyJoin "\x7d,\x7b".toList objects ++ "\x7d]".toList)
  else
    jparse content

example : load_json_file_local "\x7b\"a\": 1\x7d".toList =
    some (.arr [.obj [("a".toList, .num 1)]]) := rfl
example : load_json_file_local "[\x7b\"a\": 1\x7d, 2]".toList =
    some (.arr [.obj [("a".toList, .num 1)], .num 2]) := rfl
example : load_json_file_local "\x7b\"a\": 1\x7d\n\x7b\"b\": 2\x7d".toList = none := rfl
example : load_json_file_local "\x7b\"a\": 1\x7d,\n\x7b\"b\": 2\x7d".toList = none := rfl

/-- The first loop of `merge_json_data` (main.py:101-112): a dict document
is one candidate report, a list document is flattened, anything else is
skipped with a warning. -/
def collectReports : List JValue → List JValue
  | [] => []
  | .obj ms :: t => .obj ms :: collectReports t
  | .arr xs :: t => xs ++ collectReports t
  | _ :: t => collectReports t

/-- Python `key in report` for a parsed JSON value. -/
def hasKey (r : JValue) (k : List Char) : Bool :=
  match r with
  | .obj ms => ms.any fun kv => kv.1 == k
  | _ => false

/-- The validation test of `merge_json_data` (main.py:119): the candidate
is a dict containing `id`, `state` and `test_case_id`. -/
def isValidReport (r : JValue) : Bool :=
  (match r with | .obj _ => true | _ => false) &&
  (hasKey r "id".toList && (hasKey r "state".toList && hasKey r "test_case_id".toList))

/-- The fixed `data_structure` descriptor of `merge_json_data`
(main.py:130-136). -/
def report_schema : JValue :=
  .obj [("type".toList, .str "array".toList),
        ("items".toList,
          .obj [("type".toList, .str "object".toList),
                ("required".toList,
                  .arr [.str "id".toList, .str "state".toList,
                        .str "test_case_id".toList, .str "created".toList,
                        .str "last_changed".toList])])]

/-- `merge_json_data` (main.py:96-138).  Empty input yields a dict with
only `merged_data`; otherwise candidates are collected, validated, and the
metadata records `total_reports := len(valid_reports)` plus the fixed
schema descriptor. -/
def merge_json_data (json_files : List JValue) : JValue :=
  match json_files with
  | [] => .obj [("merged_data".toList, .arr [])]
  | _ =>
    let valid_reports := (collectReports json_files).filter isValidReport
    .obj [("merged_data".toList, .arr valid_reports),
          ("metadata".toList,
            .obj [("total_reports".toList, .num (valid_reports.length : Int)),
                  ("data_structure".toList, report_schema)])]

/-- Dictionary lookup on a parsed JSON object. -/
def jLookup (j : JValue) (k : List Char) : Option JValue :=
  match j with
  | .obj ms => (ms.find? fun kv => kv.1 == k).map fun kv => kv.2
  | _ => none

/-- The `merged_data` array of a merge result. -/
def mergedRecords (j : JValue) : List JValue :=
  match jLookup j "merged_data".toList with
  | some (.arr xs) => xs
  | _ => []

/-- The `metadata` entry of a merge result. -/
def mergeMetadata (j : JValue) : Option JValue := jLookup j "metadata".toList

/-- Declarative form of the candidate flattening, for relating the merge
loop to `List.flatMap`. -/
def docCandidates : JValue → List JValue
  | .obj ms => [.obj ms]
  | .arr xs => xs
  | _ => []

example :
    mergedRecords (merge_json_data
      [.obj [("id".toList, .num 1), ("state".toList, .str "ok".toList),
             ("test_case_id".toList, .str "t".toList)],
       .obj []]) =
    [.obj [("id".toList, .num 1), ("state".toList, .str "ok".toList),
           ("test_case_id".toList, .str "t".toList)]] := rfl

/-- The internal-dialogue line heads skipped by the sanitizer
(main.py:523-526). -/
def dialogueHeads : List (List Char) :=
  ["Thought:", "Action:", "Observation:", "Tool:", "System:",
   "Assistant:", "Human:"].map String.toList

/-- The planning/explanation line heads skipped by the sanitizer
(main.py:534-538). -/
def planningHeads : List (List Char) :=
  ["I will", "Let me", "First", "Then", "Next", "Finally",
   "To get", "To find", "To calculate", "Here\x27s", "Here are",
   "The most common", "This shows", "This indicates", "Based on"].map String.toList

/-- The statistics words whose presence keeps a line (main.py:555-559). -/
def statWords : List (List Char) :=
  ["total", "rate", "average", "distribution", "frequency", "count",
   "number", "success", "failed", "passed", "overall"].map String.toList

/-- `any(line.startswith(str(i) + ".") for i in range(1, 10))`. -/
def numberedHead (l : List Char) : Bool :=
  match l with
  | d :: c :: _ => (decide ('1' ≤ d) && decide (d ≤ '9')) && c == '.'
  | _ => false

/-- The "looks like a result" test of main.py:549-559. -/
def looksLikeResult (l : List Char) : Bool :=
  "-".toList.isPrefixOf l || "•".toList.isPrefixOf l || "*".toList.isPrefixOf l ||
  numberedHead l || l.contains ':' || l.contains '%' ||
  statWords.any fun w => hasSub (l.map Char.toLower) w

/-- Classification of the already-stripped line in the loop of
main.py:517-563: skip blanks, internal dialogue, brace lines and planning
lines; a line ending in `:` that does not start with `-` emits a blank
then itself (section header); a result-looking line emits itself; anything
else is skipped. -/
def emitCore (l : List Char) : List (List Char) :=
  if l = [] then []
  else if dialogueHeads.any fun p => p.isPrefixOf l then []
  else if l.contains '\x7b' || l.contains '\x7d' then []
  else if planningHeads.any fun p => p.isPrefixOf l then []
  else if ":".toList.isSuffixOf l && !("-".toList.isPrefixOf l) then [[], l]
  else if looksLikeResult l then [l]
  else []

/-- One iteration of the line loop (main.py:517-563): `line = line.strip()`
then the classification above. -/
def emitLine (line : List Char) : List (List Char) :=
  emitCore (pyStrip line)

/-- The cleanup loop (main.py:570-583): drop a line equal to the previous
kept line; drop a blank following a blank; `prev` starts as the empty
string. -/
def cleanLoop : List Char → List (List Char) → List (List Char)
  | _, [] => []
  | prev, l :: t =>
    if l = prev then cleanLoop prev t
    else if l = [] ∧ prev = [] then cleanLoop prev t
    else l :: cleanLoop l t

/-- main.py:586-587: pop leading blank lines. -/
def dropLeadBlanks (ls : List (List Char)) : List (List Char) :=
  ls.dropWhile fun l => l.isEmpty

/-- main.py:588-589: pop trailing blank lines. -/
def dropTrailBlanks (ls : List (List Char)) : List (List Char) :=
  (ls.reverse.dropWhile fun l => l.isEmpty).reverse

def fallbackMsg : List Char := "No analysis results available.".toList

/-- Steps 2-9 of the sanitizer (main.py:513-596): split into lines, run the
line loop, clean up, trim blank edges, and join — or the fallback text when
nothing survives. -/
def processBody (tx : List Char) : List Char :=
  match dropTrailBlanks (dropLeadBlanks (cleanLoop []
      ((splitOnSub "\n".toList tx).flatMap emitLine))) with
  | [] => fallbackMsg
  | q :: qs => pyJoin "\n".toList (q :: qs)

def finalMarker : List Char := "Final Answer:".toList

/-- Step 1 of the sanitizer (main.py:509-510):
`output.split("Final Answer:")[1].strip()` when the marker occurs — note
the index `1`: the segment between the first and second occurrence. -/
def truncateAtMarker (output : List Char) : List Char :=
  if hasSub output finalMarker then
    pyStrip ((splitOnSub finalMarker output).getD 1 [])
  else output

/-- The full response sanitizer (main.py:503-596). -/
def sanitize (output : List Char) : List Char :=
  processBody (truncateAtMarker output)

example : sanitize "Final Answer:\nTotal Reports: 3\n\nThought: hidden".toList =
    "Total Reports: 3".toList := by decide
example : sanitize "blah \x7bx\x7d\nTotal: 2\nTotal: 2\nwords".toList =
    "Total: 2".toList := by decide
example : sanitize "Final Answer: Total: 1\nFinal Answer: Total: 2".toList =
    "Total: 1".toList := by decide
example : sanitize "".toList = fallbackMsg := by decide
example : sanitize "Test States:\n- Pass: 2\n- Fail: 1".toList =
    "Test States:\n- Pass: 2\n- Fail: 1".toList := by decide
example : sanitize (sanitize "a:\nx y z\na:\nHuman: hi".toList) =
    sanitize "a:\nx y z\na:\nHuman: hi".toList := by decide

/-- Python exceptions that reach the handlers of `analyze_data`. -/
inductive PyExc where
  | http (status : Nat) (detail : List Char)
  | nameErr (ident : List Char)
  | generic (msg : List Char)

/-- `str(e)` for the exceptions above (starlette's `HTTPException.__str__`
is `f"\x7bstatus_code\x7d: \x7bdetail\x7d"`). -/
def strOfExc : PyExc → List Char
  | .http s d => (toString s).toList ++ ": ".toList ++ d
  | .nameErr n => "name \x27".toList ++ n ++ "\x27 is not defined".toList
  | .generic m => m

def noFilesDetail : List Char := "No JSON files found in the local directory".toList

def failedLoadDetail : List Char := "Failed to load any JSON files".toList

/-- The success payload of `/analyze` (main.py:598-604 / 606-613). -/
structure AnalyzeOk where
  message : List Char
  visualization : Option JValue
  success : Bool
  files_processed : Nat
  total_files_found : Nat
  visualization_error : Option (List Char)

/-- The body of `analyze_data` inside the outer `try` (main.py:223-613),
local mode.  Collaborators are explicit: `fileKeys` is the directory
listing, `loadFile` the per-file loader, `agent` the LLM agent call
(`.error` = agent exception), `viz` the chart construction over the merged
records (`.error` = construction raised).  The inner `try` (line 377)
covers visualization and sanitization; its `except` (line 605) returns a
response that reads `final_message`, but that variable is assigned only at
line 596, after visualization succeeded — so when `viz` raises, the
handler itself raises `NameError`, which propagates to the outer handler. -/
def analyze_body (fileKeys : List (List Char)) (loadFile : List Char → Option JValue)
    (max_files : Nat) (agent : JValue → Except (List Char) (List Char))
    (viz : List JValue → Except (List Char) (Option JValue)) :
    Except PyExc AnalyzeOk :=
  let json_files := fileKeys.take max_files
  match json_files with
  | [] => .error (.http 404 noFilesDetail)
  | _ =>
    let loaded_files := (json_files.map loadFile).filterMap id
    match loaded_files with
    | [] => .error (.http 500 failedLoadDetail)
    | _ =>
      let merged := merge_json_data loaded_files
      match agent merged with
      | .error e => .error (.generic e)
      | .ok output =>
        match viz (mergedRecords merged) with
        | .ok plot_json =>
          .ok { message := sanitize output
                visualization := plot_json
                success := true
                files_processed := loaded_files.length
                total_files_found := json_files.length
                visualization_error := none }
        | .error _ => .error (.nameErr "final_message".toList)

/-- `analyze_data` with the outer handler (main.py:615-616): every
exception that escapes the body — including the `HTTPException(404)`
raised at line 231, since `except Exception` catches `HTTPException` —
is re-raised as a 500 whose detail is `str(e)`. -/
def analyze_data (fileKeys : List (List Char)) (loadFile : List Char → Option JValue)
    (max_files : Nat) (agent : JValue → Except (List Char) (List Char))
    (viz : List JValue → Except (List Char) (Option JValue)) :
    Except (Nat × List Char) AnalyzeOk :=
  match analyze_body fileKeys loadFile max_files agent viz with
  | .ok r => .ok r
  | .error e => .error (500, strOfExc e)

example :
    analyze_data ["a.json".toList] (fun _ => some (.obj [])) 0
      (fun _ => .ok "x".toList) (fun _ => .ok none) =
    .error (500, "404: No JSON files found in the local directory".toList) := by
  constructor

/-- A report carrying all three required keys. -/
def sampleReport : JValue :=
  .obj [("id".toList, .num 1), ("state".toList, .str "passed".toList),
        ("test_case_id".toList, .str "tc1".toList)]

/-- A valid report whose timestamps cannot be parsed by
`pd.to_datetime`, making chart construction raise. -/
def badTimeReport : JValue :=
  .obj [("id".toList, .num 1), ("state".toList, .str "passed".toList),
        ("test_case_id".toList, .str "tc1".toList),
        ("created".toList, .str "garbage".toList),
        ("last_changed".toList, .str "junk".toList)]

/-- Claim C1: a local file holding N concatenated JSON objects with the
boundary `\x7d` newline `\x7b` should load as the array of the N objects.
The code does not: the repair splits on `\x7d,\n\x7b` (comma required) and
its re-bracketing emits duplicated closing braces, so `json.loads` raises
and the loader returns the `None` sentinel.  Both the claimed boundary and
the comma variant fail, while each object parses fine independently. -/
theorem c1_concatenated_loader_returns_none :
    load_json_file_local "\x7b\"a\": 1\x7d\n\x7b\"b\": 2\x7d".toList = none ∧
    load_json_file_local "\x7b\"a\": 1\x7d,\n\x7b\"b\": 2\x7d".toList = none ∧
    jparse "\x7b\"a\": 1\x7d".toList = some (.obj [("a".toList, .num 1)]) ∧
    jparse "\x7b\"b\": 2\x7d".toList = some (.obj [("b".toList, .num 2)]) :=
  ⟨rfl, rfl, rfl, rfl⟩

/-- Claim C2, counterexample: a single well-formed JSON object is NOT
returned as itself — the stripped text starts with `\x7b` and ends with
`\x7d`, so the repair path fires and wraps it in a one-element array. -/
theorem c2_single_object_wrapped_counterexample :
    jparse "\x7b\"a\": 1\x7d".toList = some (.obj [("a".toList, .num 1)]) ∧
    load_json_file_local "\x7b\"a\": 1\x7d".toList =
      some (.arr [.obj [("a".toList, .num 1)]]) ∧
    load_json_file_local "\x7b\"a\": 1\x7d".toList ≠
      jparse "\x7b\"a\": 1\x7d".toList := by
  refine ⟨rfl, rfl, fun h => ?_⟩
  exact JValue.noConfusion (Option.some.inj h)

/-- Claim C2 (amended): for every file whose stripped text does not both
start with `\x7b` and end with `\x7d` — in particular any single JSON
array or scalar — the loader returns exactly `json.loads(content)`. -/
theorem c2_amended_plain_json_passthrough (content : List Char)
    (h : ("\x7b".toList.isPrefixOf (pyStrip content) &&
          "\x7d".toList.isSuffixOf (pyStrip content)) = false) :
    load_json_file_local content = jparse content := by
  unfold load_json_file_local
  simp only [h, Bool.false_eq_true, if_false]

theorem c2_amended_witness :
    ("\x7b".toList.isPrefixOf (pyStrip "[\x7b\"a\": 1\x7d]".toList) &&
     "\x7d".toList.isSuffixOf (pyStrip "[\x7b\"a\": 1\x7d]".toList)) = false ∧
    load_json_file_local "[\x7b\"a\": 1\x7d]".toList =
      jparse "[\x7b\"a\": 1\x7d]".toList :=
  ⟨rfl, c2_amended_plain_json_passthrough _ rfl⟩

/-- Claim C3: every record of the merged corpus is a JSON object carrying
`id`, `state` and `test_case_id` (hence a candidate missing one never
appears), and the number of accepted candidates equals the length of the
records sequence. -/
theorem c3_merge_records_all_valid (files : List JValue) :
    (mergedRecords (merge_json_data files)).all isValidReport = true ∧
    (mergedRecords (merge_json_data files)).length =
      ((collectReports files).filter isValidReport).length := by
  have hrec : mergedRecords (merge_json_data files) =
      (collectReports files).filter isValidReport := by
    cases files <;> rfl
  rw [hrec]
  exact ⟨List.all_eq_true.mpr fun a ha => List.of_mem_filter ha, rfl⟩

/-- Claim C4, counterexample: with one valid and one invalid candidate the
metadata's `total_reports` is 1, not the 2 candidates seen — the code
stores `len(valid_reports)`, and no separate valid-count field exists. -/
theorem c4_total_reports_counterexample :
    (collectReports [sampleReport, .obj []]).length = 2 ∧
    mergeMetadata (merge_json_data [sampleReport, .obj []]) =
      some (.obj [("total_reports".toList, .num 1),
                  ("data_structure".toList, report_schema)]) ∧
    (1 : Int) ≠ 2 :=
  ⟨rfl, rfl, by decide⟩

/-- Claim C4 (amended): for every non-empty document sequence the merge
metadata records `total_reports` equal to the number of ACCEPTED records
(not candidates seen) plus the fixed schema descriptor; no candidate count
is recorded. -/
theorem c4_amended_metadata_counts_valid (files : List JValue) (h : files ≠ []) :
    mergeMetadata (merge_json_data files) =
      some (.obj [("total_reports".toList,
                    .num (((collectReports files).filter isValidReport).length : Int)),
                  ("data_structure".toList, report_schema)]) := by
  cases files with
  | nil => exact absurd rfl h
  | cons f t => rfl

theorem c4_amended_witness :
    ([sampleReport] : List JValue) ≠ [] ∧
    mergeMetadata (merge_json_data [sampleReport]) =
      some (.obj [("total_reports".toList, .num 1),
                  ("data_structure".toList, report_schema)]) :=
  ⟨List.cons_ne_nil _ _,
   c4_amended_metadata_counts_valid [sampleReport] (List.cons_ne_nil _ _)⟩

/-- Claim C5, counterexample: one successfully loaded document with zero
valid records does NOT abort the pipeline — no `NoValidRecords` check
exists: the request completes with an empty corpus and a 200 payload. -/
theorem c5_zero_valid_continues_counterexample :
    mergedRecords (merge_json_data [.obj []]) = [] ∧
    analyze_data ["empty.json".toList] (fun _ => some (.obj [])) 100
      (fun _ => .ok "Final Answer: Total: 0".toList) (fun _ => .ok none) =
      .ok { message := "Total: 0".toList, visualization := none, success := true,
            files_processed := 1, total_files_found := 1,
            visualization_error := none } :=
  ⟨rfl, rfl⟩

/-- Claim C5 (amended): zero valid records after merging is not fatal — as
long as at least one file loaded, the agent call succeeded and chart
construction succeeded, the pipeline returns a success response built on
the empty corpus. -/
theorem c5_amended_zero_valid_not_fatal (fileKeys : List (List Char))
    (loadFile : List Char → Option JValue) (max_files : Nat)
    (agent : JValue → Except (List Char) (List Char))
    (viz : List JValue → Except (List Char) (Option JValue))
    (t : List Char) (p : Option JValue)
    (h1 : fileKeys.take max_files ≠ [])
    (h2 : ((fileKeys.take max_files).map loadFile).filterMap id ≠ [])
    (hzero : mergedRecords (merge_json_data
      (((fileKeys.take max_files).map loadFile).filterMap id)) = [])
    (h3 : agent (merge_json_data
      (((fileKeys.take max_files).map loadFile).filterMap id)) = .ok t)
    (h4 : viz (mergedRecords (merge_json_data
      (((fileKeys.take max_files).map loadFile).filterMap id))) = .ok p) :
    analyze_data fileKeys loadFile max_files agent viz =
      .ok { message := sanitize t, visualization := p, success := true,
            files_processed :=
              (((fileKeys.take max_files).map loadFile).filterMap id).length,
            total_files_found := (fileKeys.take max_files).length,
            visualization_error := none } := by
  simp only [analyze_data, analyze_body]
  obtain ⟨k, ks, hk⟩ : ∃ k ks, fileKeys.take max_files = k :: ks := by
    cases hc : fileKeys.take max_files with
    | nil => exact absurd hc h1
    | cons a b => exact ⟨a, b, rfl⟩
  rw [hk] at h2 h3 h4 ⊢
  obtain ⟨d, ds, hd⟩ : ∃ d ds, ((k :: ks).map loadFile).filterMap id = d :: ds := by
    cases hc : ((k :: ks).map loadFile).filterMap id with
    | nil => exact absurd hc h2
    | cons a b => exact ⟨a, b, rfl⟩
  rw [hd] at h3 h4 ⊢
  rw [h3, h4]

/-- Witness for `c5_amended_zero_valid_not_fatal` at a concrete request. -/
theorem c5_amended_witness :
    (["empty.json".toList] : List (List Char)).take 100 ≠ [] ∧
    analyze_data ["empty.json".toList] (fun _ => some (.obj [])) 100
      (fun _ => .ok "Final Answer: Total: 0".toList) (fun _ => .ok none) =
      .ok { message := sanitize "Final Answer: Total: 0".toList,
            visualization := none, success := true,
            files_processed := 1, total_files_found := 1,
            visualization_error := none } :=
  ⟨List.cons_ne_nil _ _,
   c5_amended_zero_valid_not_fatal _ _ _ _ _ _ _
     (List.cons_ne_nil _ _) (List.cons_ne_nil _ _) rfl rfl rfl⟩

/-- Claim C8: chart-construction failure should be non-fatal (200 with
`visualization_error`).  In the code the inner `except` handler returns a
dict referencing `final_message`, which is assigned only after the
visualization block — so the handler raises `NameError` and the outer
handler turns the request into a 500.  The claim is right, the code wrong. -/
theorem c8_viz_failure_escalates_to_500 (fileKeys : List (List Char))
    (loadFile : List Char → Option JValue) (max_files : Nat)
    (agent : JValue → Except (List Char) (List Char))
    (viz : List JValue → Except (List Char) (Option JValue))
    (t e : List Char)
    (h1 : fileKeys.take max_files ≠ [])
    (h2 : ((fileKeys.take max_files).map loadFile).filterMap id ≠ [])
    (h3 : agent (merge_json_data
      (((fileKeys.take max_files).map loadFile).filterMap id)) = .ok t)
    (h4 : viz (mergedRecords (merge_json_data
      (((fileKeys.take max_files).map loadFile).filterMap id))) = .error e) :
    analyze_data fileKeys loadFile max_files agent viz =
      .error (500, strOfExc (.nameErr "final_message".toList)) := by
  simp only [analyze_data, analyze_body]
  obtain ⟨k, ks, hk⟩ : ∃ k ks, fileKeys.take max_files = k :: ks := by
    cases hc : fileKeys.take max_files with
    | nil => exact absurd hc h1
    | cons a b => exact ⟨a, b, rfl⟩
  rw [hk] at h2 h3 h4 ⊢
  obtain ⟨d, ds, hd⟩ : ∃ d ds, ((k :: ks).map loadFile).filterMap id = d :: ds := by
    cases hc : ((k :: ks).map loadFile).filterMap id with
    | nil => exact absurd hc h2
    | cons a b => exact ⟨a, b, rfl⟩
  rw [hd] at h3 h4 ⊢
  rw [h3, h4]

/-- Witness for `c8_viz_failure_escalates_to_500`: a request whose only
record has unparsable timestamps, so `pd.to_datetime` raises during chart
construction. -/
theorem c8_witness :
    (["r.json".toList] : List (List Char)).take 100 ≠ [] ∧
    analyze_data ["r.json".toList] (fun _ => some badTimeReport) 100
      (fun _ => .ok "Final Answer: Total Reports: 1".toList)
      (fun _ => .error "Unknown datetime string format".toList) =
      .error (500, strOfExc (.nameErr "final_message".toList)) :=
  ⟨List.cons_ne_nil _ _,
   c8_viz_failure_escalates_to_500 _ _ _ _ _ _ _
     (List.cons_ne_nil _ _) (List.cons_ne_nil _ _) rfl rfl⟩

/-- Claim C9: an empty candidate list (for instance `max_files = 0`)
raises `HTTPException(404)` at main.py:231, but the outer
`except Exception` at main.py:615 catches it — `HTTPException` subclasses
`Exception` — and re-raises it as a 500.  The claimed 404 never reaches
the client; the claim is right about the intent and the code wrong. -/
theorem c9_empty_candidates_surface_500 (fileKeys : List (List Char))
    (loadFile : List Char → Option JValue) (max_files : Nat)
    (agent : JValue → Except (List Char) (List Char))
    (viz : List JValue → Except (List Char) (Option JValue))
    (h : fileKeys.take max_files = []) :
    analyze_data fileKeys loadFile max_files agent viz =
      .error (500, strOfExc (.http 404 noFilesDetail)) := by
  simp only [analyze_data, analyze_body, h]

/-- Witness for `c9_empty_candidates_surface_500` at `max_files = 0`. -/
theorem c9_witness :
    (["a.json".toList] : List (List Char)).take 0 = [] ∧
    analyze_data ["a.json".toList] (fun _ => some (.obj [])) 0
      (fun _ => .ok "x".toList) (fun _ => .ok none) =
      .error (500, strOfExc (.http 404 noFilesDetail)) :=
  ⟨rfl, c9_empty_candidates_surface_500 _ _ _ _ _ rfl⟩

/-- The merge loop equals in-place flattening. -/
theorem collectReports_eq_flatMap (files : List JValue) :
    collectReports files = files.flatMap docCandidates := by
  induction files with
  | nil => rfl
  | cons f t ih =>
    cases f <;> simp [collectReports, docCandidates, List.flatMap_cons, ih]

/-- Claim C10: merging only filters — the records are exactly the valid
candidates of the in-place flattening of the documents, in order, with no
reordering, duplication or rewriting. -/
theorem c10_merge_preserves_order (files : List JValue) :
    mergedRecords (merge_json_data files) =
      (files.flatMap docCandidates).filter isValidReport := by
  have hrec : mergedRecords (merge_json_data files) =
      (collectReports files).filter isValidReport := by
    cases files <;> rfl
  rw [hrec, collectReports_eq_flatMap]

/-- `hasSub` is exactly the infix relation. -/
theorem hasSub_infix_iff {l sub : List Char} : hasSub l sub = true ↔ sub <:+: l := by
  unfold hasSub
  rw [List.any_eq_true]
  constructor
  · rintro ⟨t, ht, hp⟩
    rw [List.mem_tails] at ht
    rw [List.isPrefixOf_iff_prefix] at hp
    exact List.infix_iff_prefix_suffix.mpr ⟨t, hp, ht⟩
  · intro h
    obtain ⟨t, hp, ht⟩ := List.infix_iff_prefix_suffix.mp h
    exact ⟨t, (List.mem_tails _ _).mpr ht, List.isPrefixOf_iff_prefix.mpr hp⟩

theorem hasSub_eq_false_iff {l sub : List Char} : hasSub l sub = false ↔ ¬sub <:+: l := by
  rw [← hasSub_infix_iff]
  cases hasSub l sub <;> simp

/-- Substring absence transfers down the infix order. -/
theorem hasSub_false_mono {z l sub : List Char} (hzl : z <:+: l)
    (h : hasSub l sub = false) : hasSub z sub = false := by
  rw [hasSub_eq_false_iff] at h ⊢
  exact fun hc => h (hc.trans hzl)

theorem hasSub_nil_of_ne {sub : List Char} (h : sub ≠ []) : hasSub [] sub = false := by
  rw [hasSub_eq_false_iff]
  intro hc
  obtain ⟨s, t, hst⟩ := hc
  simp only [List.append_eq_nil] at hst
  exact h hst.1.2

theorem hasSub_singleton_iff {l : List Char} {c : Char} : hasSub l [c] = true ↔ c ∈ l := by
  rw [hasSub_infix_iff]
  constructor
  · rintro ⟨s, t, hst⟩
    rw [← hst]
    simp
  · intro h
    obtain ⟨s, t, hst⟩ := List.append_of_mem h
    exact ⟨s, t, by simp [hst]⟩

theorem hasSub_cons (c : Char) (l sub : List Char) :
    hasSub (c :: l) sub = (sub.isPrefixOf (c :: l) || hasSub l sub) := by
  unfold hasSub
  rw [List.tails_cons, List.any_cons]

/-- `dropWhileRight` is Mathlib's `rdropWhile`. -/
theorem dropWhileRight_eq_rdropWhile (p : Char → Bool) (l : List Char) :
    dropWhileRight p l = List.rdropWhile p l := rfl

theorem pyStrip_infix_self (l : List Char) : pyStrip l <:+: l := by
  unfold pyStrip
  rw [dropWhileRight_eq_rdropWhile]
  exact List.infix_iff_prefix_suffix.mpr
    ⟨l.dropWhile pyWs, List.rdropWhile_prefix _ _, List.dropWhile_suffix _⟩

theorem head_dropWhile_false {p : Char → Bool} :
    ∀ (l : List Char) (b : Char) (bs : List Char),
      List.dropWhile p l = b :: bs → p b = false
  | [], _, _, h => by simp at h
  | a :: t, b, bs, h => by
    rw [List.dropWhile_cons] at h
    by_cases ha : p a = true
    · rw [if_pos ha] at h
      exact head_dropWhile_false t b bs h
    · rw [if_neg ha] at h
      cases h
      simpa using ha

theorem pyStrip_idem (l : List Char) : pyStrip (pyStrip l) = pyStrip l := by
  unfold pyStrip
  rw [dropWhileRight_eq_rdropWhile, dropWhileRight_eq_rdropWhile]
  have h1 : List.dropWhile pyWs (List.rdropWhile pyWs (l.dropWhile pyWs)) =
      List.rdropWhile pyWs (l.dropWhile pyWs) := by
    cases hB : List.rdropWhile pyWs (l.dropWhile pyWs) with
    | nil => rfl
    | cons b bs =>
      obtain ⟨t, ht⟩ := List.rdropWhile_prefix pyWs (l.dropWhile pyWs)
      rw [hB] at ht
      have hA : List.dropWhile pyWs l = b :: (bs ++ t) := by
        rw [← ht]
        simp
      have hb : pyWs b = false := head_dropWhile_false l b (bs ++ t) hA
      simp [List.dropWhile_cons, hb]
  rw [h1, List.rdropWhile_idempotent]

theorem splitAux_ne_nil (p : Char) (ps : List Char) :
    ∀ (f : Nat) (l : List Char), splitAux p ps f l ≠ [] := by
  intro f l
  match f, l with
  | 0, l => exact List.cons_ne_nil _ _
  | _ + 1, [] => exact List.cons_ne_nil _ _
  | f + 1, c :: t =>
    rw [splitAux]
    by_cases hp : (p :: ps).isPrefixOf (c :: t) = true
    · rw [if_pos hp]
      exact List.cons_ne_nil _ _
    · rw [if_neg hp]
      cases splitAux p ps f t <;> exact List.cons_ne_nil _ _

theorem splitAux_head_prefix (p : Char) (ps : List Char) :
    ∀ (f : Nat) (l q : List Char) (qs : List (List Char)),
      splitAux p ps f l = q :: qs → q <+: l := by
  intro f
  induction f with
  | zero =>
    intro l q qs h
    rw [splitAux] at h
    cases h
    exact List.prefix_rfl
  | succ f ih =>
    intro l q qs h
    match l with
    | [] =>
      rw [splitAux] at h
      cases h
      exact List.nil_prefix
    | c :: t =>
      rw [splitAux] at h
      by_cases hp : (p :: ps).isPrefixOf (c :: t) = true
      · rw [if_pos hp] at h
        cases h
        exact List.nil_prefix
      · rw [if_neg hp] at h
        cases hq : splitAux p ps f t with
        | nil => exact absurd hq (splitAux_ne_nil p ps f t)
        | cons q₀ qs₀ =>
          rw [hq] at h
          have hq₀ : q₀ <+: t := ih t q₀ qs₀ hq
          have hqc : q = c :: q₀ := by
            have := (List.cons.injEq _ _ _ _).mp h.symm
            exact this.1
          rw [hqc]
          exact List.cons_prefix_cons.mpr ⟨rfl, hq₀⟩

theorem splitAux_piece_infix_self (p : Char) (ps : List Char) :
    ∀ (f : Nat) (l q : List Char), q ∈ splitAux p ps f l → q <:+: l := by
  intro f
  induction f with
  | zero =>
    intro l q h
    rw [splitAux] at h
    rw [List.mem_singleton] at h
    exact h ▸ List.infix_refl l
  | succ f ih =>
    intro l q h
    match l with
    | [] =>
      rw [splitAux] at h
      rw [List.mem_singleton] at h
      exact h ▸ List.infix_refl _
    | c :: t =>
      rw [splitAux] at h
      by_cases hp : (p :: ps).isPrefixOf (c :: t) = true
      · rw [if_pos hp] at h
        rcases List.mem_cons.mp h with h | h
        · exact h ▸ List.nil_infix
        · have h1 : q <:+: t.drop ps.length := ih _ q h
          have h2 : t.drop ps.length <:+ t := List.drop_suffix _ _
          exact (h1.trans h2.isInfix).trans (List.suffix_cons c t).isInfix
      · rw [if_neg hp] at h
        cases hq : splitAux p ps f t with
        | nil => exact absurd hq (splitAux_ne_nil p ps f t)
        | cons q₀ qs₀ =>
          rw [hq] at h
          rcases List.mem_cons.mp h with h | h
          · have hq₀ : q₀ <+: t := splitAux_head_prefix p ps f t q₀ qs₀ hq
            exact h ▸ (List.cons_prefix_cons.mpr ⟨rfl, hq₀⟩).isInfix
          · have : q ∈ splitAux p ps f t := by
              rw [hq]
              exact List.mem_cons_of_mem _ h
            exact (ih t q this).trans (List.suffix_cons c t).isInfix

theorem splitAux_piece_no_sep (p : Char) (ps : List Char) :
    ∀ (f : Nat) (l : List Char), l.length < f →
      ∀ q ∈ splitAux p ps f l, hasSub q (p :: ps) = false := by
  intro f
  induction f with
  | zero =>
    intro l hl
    omega
  | succ f ih =>
    intro l hl q h
    match l with
    | [] =>
      rw [splitAux] at h
      rw [List.mem_singleton] at h
      exact h ▸ hasSub_nil_of_ne (List.cons_ne_nil _ _)
    | c :: t =>
      rw [splitAux] at h
      by_cases hp : (p :: ps).isPrefixOf (c :: t) = true
      · rw [if_pos hp] at h
        rcases List.mem_cons.mp h with h | h
        · exact h ▸ hasSub_nil_of_ne (List.cons_ne_nil _ _)
        · refine ih (t.drop ps.length) ?_ q h
          have := List.length_drop ps.length t
          simp only [List.length_cons] at hl
          omega
      · rw [if_neg hp] at h
        cases hq : splitAux p ps f t with
        | nil => exact absurd hq (splitAux_ne_nil p ps f t)
        | cons q₀ qs₀ =>
          rw [hq] at h
          have hlt : t.length < f := by
            simp only [List.length_cons] at hl
            omega
          rcases List.mem_cons.mp h with h | h
          · subst h
            rw [hasSub_cons]
            have h1 : hasSub q₀ (p :: ps) = false := by
              refine ih t hlt q₀ ?_
              rw [hq]
              exact List.mem_cons_self _ _
            have h2 : (p :: ps).isPrefixOf (c :: q₀) = false := by
              by_contra hc
              rw [Bool.not_eq_false, List.isPrefixOf_iff_prefix] at hc
              have hq₀ : q₀ <+: t := splitAux_head_prefix p ps f t q₀ qs₀ hq
              have : (p :: ps) <+: (c :: t) :=
                hc.trans (List.cons_prefix_cons.mpr ⟨rfl, hq₀⟩)
              rw [← List.isPrefixOf_iff_prefix] at this
              exact hp this
            rw [h1, h2]
            rfl
          · refine ih t hlt q ?_
            rw [hq]
            exact List.mem_cons_of_mem _ h

theorem splitAux_of_no_sep (p : Char) (ps : List Char) :
    ∀ (f : Nat) (l : List Char), l.length < f →
      hasSub l (p :: ps) = false → splitAux p ps f l = [l] := by
  intro f
  induction f with
  | zero => omega
  | succ f ih =>
    intro l hl h
    match l with
    | [] => rw [splitAux]
    | c :: t =>
      rw [hasSub_cons] at h
      rw [Bool.or_eq_false_iff] at h
      rw [splitAux, if_neg (by rw [h.1]; exact Bool.false_ne_true)]
      have : splitAux p ps f t = [t] := by
        refine ih t ?_ h.2
        simp only [List.length_cons] at hl
        omega
      rw [this]

theorem splitAux_two_of_hasSub (p : Char) (ps : List Char) :
    ∀ (f : Nat) (l : List Char), l.length < f → hasSub l (p :: ps) = true →
      ∃ a b rest, splitAux p ps f l = a :: b :: rest := by
  intro f
  induction f with
  | zero => omega
  | succ f ih =>
    intro l hl h
    match l with
    | [] =>
      rw [hasSub_nil_of_ne (List.cons_ne_nil _ _)] at h
      exact absurd h Bool.false_ne_true
    | c :: t =>
      rw [splitAux]
      by_cases hp : (p :: ps).isPrefixOf (c :: t) = true
      · rw [if_pos hp]
        cases hq : splitAux p ps f (t.drop ps.length) with
        | nil => exact absurd hq (splitAux_ne_nil p ps f _)
        | cons b rest => exact ⟨[], b, rest, rfl⟩
      · rw [if_neg hp]
        rw [hasSub_cons] at h
        rcases Bool.or_eq_true_iff.mp h with h | h
        · exact absurd h hp
        · have hlt : t.length < f := by
            simp only [List.length_cons] at hl
            omega
          obtain ⟨a, b, rest, hab⟩ := ih t hlt h
          rw [hab]
          exact ⟨c :: a, b, rest, rfl⟩

theorem splitOnSub_piece_no_sep {sep l q : List Char} (hsep : sep ≠ [])
    (hq : q ∈ splitOnSub sep l) : hasSub q sep = false := by
  match sep with
  | [] => exact absurd rfl hsep
  | p :: ps =>
    exact splitAux_piece_no_sep p ps (l.length + 1) l (Nat.lt_succ_self _) q hq

theorem splitOnSub_piece_infix_self {sep l q : List Char} (hq : q ∈ splitOnSub sep l) :
    q <:+: l := by
  match sep with
  | [] => exact (List.mem_singleton.mp hq) ▸ List.infix_refl l
  | p :: ps => exact splitAux_piece_infix_self p ps (l.length + 1) l q hq

theorem splitOnSub_of_no_sep {sep l : List Char} (hsep : sep ≠ [])
    (h : hasSub l sep = false) : splitOnSub sep l = [l] := by
  match sep with
  | [] => exact absurd rfl hsep
  | p :: ps => exact splitAux_of_no_sep p ps (l.length + 1) l (Nat.lt_succ_self _) h

theorem splitOnSub_two_of_hasSub {sep l : List Char} (h : hasSub l sep = true)
    (hsep : sep ≠ []) : ∃ a b rest, splitOnSub sep l = a :: b :: rest := by
  match sep with
  | [] => exact absurd rfl hsep
  | p :: ps => exact splitAux_two_of_hasSub p ps (l.length + 1) l (Nat.lt_succ_self _) h

/-- Splitting on a single character: the canonical fuel steps once per
consumed character, so the recursion lines up exactly. -/
theorem split_single_append (c : Char) :
    ∀ (l r : List Char), c ∉ l →
      splitOnSub [c] (l ++ c :: r) = l :: splitOnSub [c] r := by
  intro l
  induction l with
  | nil =>
    intro r _
    simp only [List.nil_append, splitOnSub, List.length_cons]
    rw [splitAux]
    rw [if_pos (by simp [List.isPrefixOf])]
    simp only [List.length_nil, List.drop_zero]
  | cons a l' ih =>
    intro r hc
    have ha : a ≠ c := fun h => hc (h ▸ List.mem_cons_self a l')
    have hc' : c ∉ l' := fun h => hc (List.mem_cons_of_mem a h)
    have hrec := ih r hc'
    simp only [splitOnSub] at hrec ⊢
    simp only [List.cons_append, List.length_cons, List.length_append] at hrec ⊢
    rw [splitAux]
    rw [if_neg (by simp [List.isPrefixOf]; exact fun h => ha h.symm)]
    rw [hrec]

theorem split_single_join (c : Char) :
    ∀ (M : List (List Char)), M ≠ [] → (∀ q ∈ M, c ∉ q) →
      splitOnSub [c] (pyJoin [c] M) = M := by
  intro M
  induction M with
  | nil => intro h; exact absurd rfl h
  | cons q M' ih =>
    intro _ hq
    cases M' with
    | nil =>
      show splitOnSub [c] q = [q]
      refine splitOnSub_of_no_sep (List.cons_ne_nil _ _) ?_
      rw [hasSub_eq_false_iff]
      intro hinf
      exact hq q (List.mem_singleton_self q)
        ((hasSub_singleton_iff).mp (hasSub_infix_iff.mpr hinf))
    | cons q₂ M'' =>
      have hjoin : pyJoin [c] (q :: q₂ :: M'') = q ++ c :: pyJoin [c] (q₂ :: M'') := by
        show q ++ [c] ++ pyJoin [c] (q₂ :: M'') = q ++ c :: pyJoin [c] (q₂ :: M'')
        simp
      rw [hjoin]
      rw [split_single_append c q _ (hq q (List.mem_cons_self _ _))]
      rw [ih (List.cons_ne_nil _ _) fun x hx => hq x (List.mem_cons_of_mem _ hx)]

theorem pyJoin_cons (s q : List Char) {M : List (List Char)} (h : M ≠ []) :
    pyJoin s (q :: M) = q ++ s ++ pyJoin s M := by
  cases M with
  | nil => exact absurd rfl h
  | cons _ _ => rfl

theorem prefix_append_cases {q x y : List Char} (h : q <+: x ++ y) :
    q <+: x ∨ ∃ q', q = x ++ q' ∧ q' <+: y := by
  obtain ⟨t, ht⟩ := h
  rcases List.append_eq_append_iff.mp ht.symm with ⟨a', ha1, ha2⟩ | ⟨c', hc1, hc2⟩
  · exact Or.inr ⟨a', ha1, ⟨t, ha2.symm⟩⟩
  · exact Or.inl ⟨c', hc1.symm⟩

theorem infix_append_cons_cases {sub : List Char} {c : Char} (hc : c ∉ sub) :
    ∀ l r, sub <:+: (l ++ c :: r) → sub <:+: l ∨ sub <:+: r := by
  intro l
  induction l with
  | nil =>
    intro r h
    obtain ⟨s, t, hst⟩ := h
    simp only [List.nil_append] at hst
    cases s with
    | nil =>
      cases sub with
      | nil => exact Or.inl List.nil_infix
      | cons u us =>
        simp only [List.nil_append, List.cons_append] at hst
        obtain ⟨hu, _⟩ := (List.cons.injEq _ _ _ _).mp hst
        exact absurd (hu ▸ List.mem_cons_self u us) hc
    | cons a s' =>
      simp only [List.cons_append] at hst
      obtain ⟨_, hrest⟩ := (List.cons.injEq _ _ _ _).mp hst
      exact Or.inr ⟨s', t, hrest⟩
  | cons a l' ih =>
    intro r h
    obtain ⟨s, t, hst⟩ := h
    cases s with
    | nil =>
      cases sub with
      | nil => exact Or.inl List.nil_infix
      | cons u us =>
        simp only [List.nil_append, List.cons_append] at hst
        obtain ⟨hu, hrest⟩ := (List.cons.injEq _ _ _ _).mp hst
        subst hu
        have hus : us <+: l' ++ c :: r := ⟨t, hrest⟩
        rcases prefix_append_cases hus with h1 | ⟨q', hq1, hq2⟩
        · exact Or.inl ((List.cons_prefix_cons.mpr ⟨rfl, h1⟩).isInfix)
        · cases q' with
          | nil =>
            rw [List.append_nil] at hq1
            subst hq1
            exact Or.inl (List.infix_refl _)
          | cons b q'' =>
            have hb : b = c := (List.cons_prefix_cons.mp hq2).1
            subst hb
            exact absurd (List.mem_cons_self _ _)
              fun hmem => hc (hq1 ▸ List.mem_cons_of_mem u
                (List.mem_append.mpr (Or.inr hmem)))
    | cons a' s' =>
      simp only [List.cons_append] at hst
      obtain ⟨_, hrest⟩ := (List.cons.injEq _ _ _ _).mp hst
      rcases ih r ⟨s', t, hrest⟩ with h1 | h1
      · exact Or.inl (List.infix_cons h1)
      · exact Or.inr h1

theorem hasSub_pyJoin_single {c : Char} {sub : List Char} (hc : c ∉ sub)
    (hsub : sub ≠ []) :
    ∀ M : List (List Char), (∀ q ∈ M, hasSub q sub = false) →
      hasSub (pyJoin [c] M) sub = false := by
  intro M
  induction M with
  | nil => exact fun _ => hasSub_nil_of_ne hsub
  | cons q M' ih =>
    intro hM
    cases M' with
    | nil => exact hM q (List.mem_singleton_self q)
    | cons q₂ M'' =>
      rw [pyJoin_cons [c] q (List.cons_ne_nil _ _)]
      rw [hasSub_eq_false_iff]
      intro hinf
      rw [List.append_assoc, List.singleton_append] at hinf
      rcases infix_append_cons_cases hc q _ hinf with h1 | h1
      · have h2 := hM q (List.mem_cons_self _ _)
        rw [hasSub_eq_false_iff] at h2
        exact h2 h1
      · have := ih fun x hx => hM x (List.mem_cons_of_mem _ hx)
        rw [hasSub_eq_false_iff] at this
        exact this h1

theorem emitLine_nil : emitLine [] = [] := rfl

theorem emitCore_cases (l : List Char) :
    emitCore l = [] ∨ emitCore l = [l] ∨ emitCore l = [[], l] := by
  unfold emitCore
  split_ifs <;> simp

theorem emitLine_pyStrip (w : List Char) : emitLine (pyStrip w) = emitLine w := by
  unfold emitLine
  rw [pyStrip_idem]

theorem emit_mem {z w : List Char} (h : z ∈ emitLine w) : z = [] ∨ z = pyStrip w := by
  unfold emitLine at h
  rcases emitCore_cases (pyStrip w) with h' | h' | h' <;> rw [h'] at h <;> simp at h <;> tauto

/-- Shape invariant of the line-loop output and of every list the cleanup
loop derives from it: a sequence of result lines (`emitLine r = [r]`) and
header pairs (a blank followed by `h` with `emitLine h = [[], h]`). -/
inductive Chunky : List (List Char) → Prop
  | nil : Chunky []
  | res (r : List Char) (t : List (List Char)) (hr : emitLine r = [r])
      (ht : Chunky t) : Chunky (r :: t)
  | hdr (h : List Char) (t : List (List Char)) (hh : emitLine h = [[], h])
      (ht : Chunky t) : Chunky ([] :: h :: t)

theorem res_ne_nil {r : List Char} (hr : emitLine r = [r]) : r ≠ [] := by
  intro h
  subst h
  rw [emitLine_nil] at hr
  exact List.noConfusion hr

theorem hdr_ne_nil {h : List Char} (hh : emitLine h = [[], h]) : h ≠ [] := by
  intro he
  subst he
  rw [emitLine_nil] at hh
  exact List.noConfusion hh

theorem flatMap_emit_chunky (ls : List (List Char)) :
    Chunky (ls.flatMap emitLine) := by
  induction ls with
  | nil => exact Chunky.nil
  | cons w ls' ih =>
    rw [List.flatMap_cons]
    rcases emitCore_cases (pyStrip w) with h' | h' | h'
    · rw [show emitLine w = [] from h']
      exact ih
    · rw [show emitLine w = [pyStrip w] from h']
      exact Chunky.res _ _ (by rw [emitLine_pyStrip w]; exact h') ih
    · rw [show emitLine w = [[], pyStrip w] from h']
      exact Chunky.hdr _ _ (by rw [emitLine_pyStrip w]; exact h') ih

theorem flatMap_emit_of_chunky {L : List (List Char)} (h : Chunky L) :
    L.flatMap emitLine = L := by
  induction h with
  | nil => rfl
  | res r t hr _ ih =>
    rw [List.flatMap_cons, hr, ih]
    rfl
  | hdr hd t hh _ ih =>
    rw [List.flatMap_cons, List.flatMap_cons, emitLine_nil, hh, ih]
    rfl

theorem cleanLoop_sublist (prev : List Char) (ls : List (List Char)) :
    List.Sublist (cleanLoop prev ls) ls := by
  induction ls generalizing prev with
  | nil => exact List.Sublist.refl []
  | cons l t ih =>
    rw [cleanLoop]
    by_cases h1 : l = prev
    · rw [if_pos h1]
      exact (ih prev).cons l
    · rw [if_neg h1]
      by_cases h2 : l = [] ∧ prev = []
      · rw [if_pos h2]
        exact (ih prev).cons l
      · rw [if_neg h2]
        exact (ih l).cons₂ l

theorem cleanLoop_of_chain :
    ∀ (ls : List (List Char)) (prev : List Char),
      List.Chain' (· ≠ ·) (prev :: ls) → cleanLoop prev ls = ls := by
  intro ls
  induction ls with
  | nil => intro _ _; rfl
  | cons l t ih =>
    intro prev hch
    obtain ⟨hne, hch'⟩ := List.chain'_cons.mp hch
    rw [cleanLoop]
    rw [if_neg fun h => hne h.symm]
    rw [if_neg fun h => hne (h.2.trans h.1.symm)]
    rw [ih l hch']

theorem cleanLoop_chunky_tail :
    ∀ {F : List (List Char)}, Chunky F → ∀ p, p ≠ [] →
      Chunky (cleanLoop p F) ∧ List.Chain' (· ≠ ·) (p :: cleanLoop p F) ∧
        (cleanLoop p F).getLast? ≠ some [] := by
  intro F hF
  induction hF with
  | nil =>
    intro p _
    exact ⟨Chunky.nil, by simpa [cleanLoop] using List.chain'_singleton p, by simp [cleanLoop]⟩
  | res r t hr ht ih =>
    intro p hp
    have hrne : r ≠ [] := res_ne_nil hr
    rw [cleanLoop]
    by_cases h1 : r = p
    · rw [if_pos h1]
      exact ih p hp
    · rw [if_neg h1, if_neg fun h => hrne h.1]
      obtain ⟨c1, c2, c3⟩ := ih r hrne
      refine ⟨Chunky.res r _ hr c1, List.chain'_cons.mpr ⟨fun h => h1 h.symm, c2⟩, ?_⟩
      cases hX : cleanLoop r t with
      | nil => simpa using hrne
      | cons x xs =>
        rw [List.getLast?_cons_cons]
        rw [hX] at c3
        exact c3
  | hdr h t hh ht ih =>
    intro p hp
    have hhne : h ≠ [] := hdr_ne_nil hh
    rw [cleanLoop]
    rw [if_neg fun he => hp he.symm, if_neg fun he => hp he.2]
    rw [cleanLoop]
    rw [if_neg hhne, if_neg fun he => hhne he.1]
    obtain ⟨c1, c2, c3⟩ := ih h hhne
    refine ⟨Chunky.hdr h _ hh c1,
      List.chain'_cons.mpr ⟨hp, List.chain'_cons.mpr ⟨fun he => hhne he.symm, c2⟩⟩, ?_⟩
    cases hX : cleanLoop h t with
    | nil =>
      rw [List.getLast?_cons_cons]
      simpa using hhne
    | cons x xs =>
      rw [List.getLast?_cons_cons, List.getLast?_cons_cons]
      rw [hX] at c3
      exact c3

/-- The possible shapes of the cleaned line list: a chunky list, possibly
headed by a bare section header whose leading blank was eaten by the
cleanup loop's initial empty `prev`. -/
def SaneL (L : List (List Char)) : Prop :=
  Chunky L ∨ ∃ h t, L = h :: t ∧ emitLine h = [[], h] ∧ Chunky t

theorem cleanLoop_chunky_head {F : List (List Char)} (hF : Chunky F) :
    SaneL (cleanLoop [] F) ∧ List.Chain' (· ≠ ·) (cleanLoop [] F) ∧
      (cleanLoop [] F).head? ≠ some [] ∧ (cleanLoop [] F).getLast? ≠ some [] := by
  cases hF with
  | nil =>
    exact ⟨Or.inl Chunky.nil, by simp [cleanLoop], by simp [cleanLoop], by simp [cleanLoop]⟩
  | res r t hr ht =>
    have hrne : r ≠ [] := res_ne_nil hr
    rw [cleanLoop]
    rw [if_neg hrne, if_neg fun h => hrne h.1]
    obtain ⟨c1, c2, c3⟩ := cleanLoop_chunky_tail ht r hrne
    refine ⟨Or.inl (Chunky.res r _ hr c1), c2, by simpa using hrne, ?_⟩
    cases hX : cleanLoop r t with
    | nil => simpa using hrne
    | cons x xs =>
      rw [List.getLast?_cons_cons]
      rw [hX] at c3
      exact c3
  | hdr h t hh ht =>
    have hhne : h ≠ [] := hdr_ne_nil hh
    rw [cleanLoop]
    rw [if_pos rfl]
    rw [cleanLoop]
    rw [if_neg hhne, if_neg fun he => hhne he.1]
    obtain ⟨c1, c2, c3⟩ := cleanLoop_chunky_tail ht h hhne
    refine ⟨Or.inr ⟨h, cleanLoop h t, rfl, hh, c1⟩, c2, by simpa using hhne, ?_⟩
    cases hX : cleanLoop h t with
    | nil => simpa using hhne
    | cons x xs =>
      rw [List.getLast?_cons_cons]
      rw [hX] at c3
      exact c3

theorem dropLeadBlanks_of_head {L : List (List Char)} (h : L.head? ≠ some []) :
    dropLeadBlanks L = L := by
  cases L with
  | nil => rfl
  | cons l t =>
    have hl : l ≠ [] := by
      intro he
      exact h (by rw [he]; rfl)
    unfold dropLeadBlanks
    rw [List.dropWhile_cons]
    rw [if_neg (by cases l with | nil => exact absurd rfl hl | cons _ _ => simp)]

theorem dropTrailBlanks_eq_rdropWhile (L : List (List Char)) :
    dropTrailBlanks L = List.rdropWhile (fun l => l.isEmpty) L := rfl

theorem dropTrailBlanks_of_getLast {L : List (List Char)} (h : L.getLast? ≠ some []) :
    dropTrailBlanks L = L := by
  rw [dropTrailBlanks_eq_rdropWhile]
  rw [List.rdropWhile_eq_self_iff]
  intro hl
  have hlast : L.getLast? = some (L.getLast hl) := List.getLast?_eq_getLast L hl
  intro hc
  apply h
  rw [hlast]
  have : L.getLast hl = [] := by
    cases hg : L.getLast hl with
    | nil => rfl
    | cons _ _ =>
      rw [hg] at hc
      simp at hc
  rw [this]

/-- Every line the cleanup loop retains is marker-free and newline-free. -/
theorem clean_elem_props {tx z : List Char} (hm : hasSub tx finalMarker = false)
    (hz : z ∈ cleanLoop [] ((splitOnSub "\n".toList tx).flatMap emitLine)) :
    hasSub z finalMarker = false ∧ '\n' ∉ z := by
  have hzF : z ∈ (splitOnSub "\n".toList tx).flatMap emitLine :=
    (cleanLoop_sublist [] _).subset hz
  obtain ⟨w, hw, hzw⟩ := List.mem_flatMap.mp hzF
  rcases emit_mem hzw with rfl | rfl
  · exact ⟨hasSub_nil_of_ne (by decide), by simp⟩
  · have hwnl : hasSub w ['\n'] = false :=
      splitOnSub_piece_no_sep (by decide) hw
    have hwtx : w <:+: tx := splitOnSub_piece_infix_self hw
    have h1 : hasSub (pyStrip w) finalMarker = false :=
      hasSub_false_mono ((pyStrip_infix_self w).trans hwtx) hm
    have h2 : '\n' ∉ pyStrip w := by
      intro hmem
      have : '\n' ∈ w := (pyStrip_infix_self w).subset hmem
      rw [← hasSub_singleton_iff] at this
      rw [hwnl] at this
      exact Bool.false_ne_true this
    exact ⟨h1, h2⟩

theorem sanitize_fallback : sanitize fallbackMsg = fallbackMsg := by decide

/-- Restarting the cleanup loop on an already-clean non-blank-headed list
is the identity. -/
theorem cleanLoop_nil_restore {m : List Char} {M : List (List Char)}
    (hch : List.Chain' (· ≠ ·) (m :: M)) (hm : m ≠ []) :
    cleanLoop [] (m :: M) = m :: M := by
  rw [cleanLoop]
  rw [if_neg hm, if_neg fun h => hm h.1]
  rw [cleanLoop_of_chain M m hch]

/-- Key fixpoint: on a marker-free transcript, re-sanitizing the processed
body changes nothing. -/
theorem processBody_fixed {tx : List Char} (hm : hasSub tx finalMarker = false) :
    sanitize (processBody tx) = processBody tx := by
  have hF : Chunky ((splitOnSub "\n".toList tx).flatMap emitLine) :=
    flatMap_emit_chunky _
  obtain ⟨hSane, hChain, hHead, hLast⟩ := cleanLoop_chunky_head hF
  have hPB : processBody tx =
      match cleanLoop [] ((splitOnSub "\n".toList tx).flatMap emitLine) with
      | [] => fallbackMsg
      | q :: qs => pyJoin "\n".toList (q :: qs) := by
    unfold processBody
    rw [dropLeadBlanks_of_head hHead, dropTrailBlanks_of_getLast hLast]
  cases hN : cleanLoop [] ((splitOnSub "\n".toList tx).flatMap emitLine) with
  | nil =>
    rw [hN] at hPB
    have hPB' : processBody tx = fallbackMsg := hPB
    rw [hPB']
    exact sanitize_fallback
  | cons m M =>
    rw [hN] at hSane hChain hHead hLast hPB
    have hPB' : processBody tx = pyJoin "\n".toList (m :: M) := hPB
    have hmne : m ≠ [] := by
      intro he
      exact hHead (by rw [he]; rfl)
    have helem : ∀ z ∈ m :: M, hasSub z finalMarker = false ∧ '\n' ∉ z := by
      intro z hz
      exact clean_elem_props hm (hN ▸ hz)
    have hym : hasSub (pyJoin "\n".toList (m :: M)) finalMarker = false :=
      hasSub_pyJoin_single (by decide) (by decide) (m :: M) fun q hq => (helem q hq).1
    have hTr : truncateAtMarker (pyJoin "\n".toList (m :: M)) =
        pyJoin "\n".toList (m :: M) := by
      unfold truncateAtMarker
      rw [hym]
      simp
    have hsplit : splitOnSub "\n".toList (pyJoin "\n".toList (m :: M)) = m :: M :=
      split_single_join '\n' (m :: M) (List.cons_ne_nil _ _) fun q hq => (helem q hq).2
    have hflat : cleanLoop [] ((m :: M).flatMap emitLine) = m :: M := by
      rcases hSane with hCh | ⟨hb, tb, hEq, hh, ht⟩
      · rw [flatMap_emit_of_chunky hCh]
        exact cleanLoop_nil_restore hChain hmne
      · obtain ⟨hmh, hMt⟩ := (List.cons.injEq _ _ _ _).mp hEq
        subst hmh
        subst hMt
        rw [List.flatMap_cons, hh, flatMap_emit_of_chunky ht]
        show cleanLoop [] ([] :: m :: M) = m :: M
        rw [cleanLoop]
        rw [if_pos rfl]
        exact cleanLoop_nil_restore hChain hmne
    rw [hPB']
    show processBody (truncateAtMarker (pyJoin "\n".toList (m :: M))) =
      pyJoin "\n".toList (m :: M)
    rw [hTr]
    unfold processBody
    rw [hsplit, hflat]
    rw [dropLeadBlanks_of_head hHead, dropTrailBlanks_of_getLast hLast]

theorem getD_one_cases (L : List (List Char)) :
    L.getD 1 [] = [] ∨ L.getD 1 [] ∈ L := by
  match L with
  | [] => exact Or.inl rfl
  | [a] => exact Or.inl rfl
  | a :: b :: t => exact Or.inr (by simp [List.getD])

/-- After step 1 the text being processed never contains the marker:
with no marker it is the transcript itself, otherwise it is a separator-free
piece of the split. -/
theorem truncate_no_marker (x : List Char) :
    hasSub (truncateAtMarker x) finalMarker = false := by
  unfold truncateAtMarker
  cases hx : hasSub x finalMarker with
  | false =>
    simp only [Bool.false_eq_true, if_false]
    exact hx
  | true =>
    rw [if_pos rfl]
    rcases getD_one_cases (splitOnSub finalMarker x) with h | h
    · rw [h]
      exact hasSub_nil_of_ne (by decide)
    · have hq : hasSub ((splitOnSub finalMarker x).getD 1 []) finalMarker = false :=
        splitOnSub_piece_no_sep (by decide) h
      exact hasSub_false_mono (pyStrip_infix_self _) hq

/-- Claim C6: the response sanitizer is idempotent — re-sanitizing its own
output yields the output unchanged, for every transcript. -/
theorem c6_sanitize_idempotent (x : List Char) :
    sanitize (sanitize x) = sanitize x :=
  processBody_fixed (truncate_no_marker x)

/-- Modelled from the claim's words (refinement reference only): the
entire remainder of the transcript after the first marker occurrence. -/
def remainderAfterFirstMarker (x : List Char) : List Char :=
  pyJoin finalMarker ((splitOnSub finalMarker x).drop 1)

/-- Claim C7, counterexample: with a second `Final Answer:` later in the
transcript, the code processes only the segment between the first and
second occurrences (`split(...)[1]`), while the claim demands the entire
remainder — the two disagree on this transcript. -/
theorem c7_second_marker_counterexample :
    sanitize "Final Answer: Total: 1\nFinal Answer: Total: 2".toList =
      "Total: 1".toList ∧
    processBody (pyStrip (remainderAfterFirstMarker
      "Final Answer: Total: 1\nFinal Answer: Total: 2".toList)) =
      "Total: 1\nFinal Answer: Total: 2".toList ∧
    "Total: 1".toList ≠ "Total: 1\nFinal Answer: Total: 2".toList :=
  ⟨by decide, by decide, by decide⟩

/-- Claim C7 (amended): when the marker occurs the sanitizer operates on
the stripped segment between the first and the following occurrence (or
the end) — `split("Final Answer:")[1]` — discarding everything from a
second occurrence onward; a transcript without the marker is processed
as-is with no truncation. -/
theorem c7_amended_truncation_segment (x : List Char) :
    (∀ a b rest, splitOnSub finalMarker x = a :: b :: rest →
       sanitize x = processBody (pyStrip b)) ∧
    (hasSub x finalMarker = false → sanitize x = processBody x) := by
  constructor
  · intro a b rest hsplit
    have hms : hasSub x finalMarker = true := by
      cases hx : hasSub x finalMarker with
      | true => rfl
      | false =>
        rw [splitOnSub_of_no_sep (by decide) hx] at hsplit
        exact absurd ((List.cons.injEq _ _ _ _).mp hsplit).2 (by simp)
    unfold sanitize truncateAtMarker
    rw [hms, if_pos rfl, hsplit]
    rfl
  · intro hx
    unfold sanitize truncateAtMarker
    rw [hx]
    simp

theorem c7_amended_witness :
    (splitOnSub finalMarker "Final Answer: A: 1\nFinal Answer: B: 2".toList =
      [[], " A: 1\n".toList, " B: 2".toList]) ∧
    sanitize "Final Answer: A: 1\nFinal Answer: B: 2".toList =
      processBody (pyStrip " A: 1\n".toList) ∧
    hasSub "plain text".toList finalMarker = false ∧
    sanitize "plain text".toList = processBody "plain text".toList :=
  ⟨by decide,
   (c7_amended_truncation_segment _).1 [] (" A: 1\n".toList) [" B: 2".toList] (by decide),
   by decide,
   (c7_amended_truncation_segment _).2 (by decide)⟩
